import Mathlib

/-!
Verification of the LRU cache in src/LeetCode/146_LRU_Cache.py.

The Python implementation combines a dict (`self.cache`, mapping key to
node) with a doubly linked list of nodes bounded by two sentinel nodes
(`self.head` on the most-recently-used side, `self.tail` on the
least-recently-used side).

Embedding choices:
* A node carries its `key` and `value`; the `prev`/`next` pointers of the
  Python nodes are represented by the node's position in `order`, the Lean
  list of the entries strictly between the two sentinels, listed from the
  head (most-recently-used) side to the tail (least-recently-used) side.
  `self.tail.prev` is therefore `order.getLast?`; the result `none` stands
  for the case in which `tail.prev` is the head sentinel itself.
* The dict is an association list `cache : List (Int × Node)`; Python dict
  assignment/deletion become `dictInsert`/`dictErase` below.  `dictErase`
  removes every pair carrying the key; in the Python dict the key is unique,
  so exactly one binding disappears, and `dictInsert` inserts after erasing,
  which keeps the association list duplicate-free just as a dict is.
* `_remove` splices a node out of the linked list by pointer surgery; here
  it removes the (unique) entry with that node's key from `order`.  Its
  Python failure modes (AttributeError when the node is the head sentinel,
  whose `prev` is `None`; KeyError when the key is absent) cannot arise for
  the nodes the methods pass to it, except in `put`'s eviction branch: with
  an empty list `self.tail.prev` is the head sentinel and
  `self._remove(lru)` dereferences `None`.  That branch is modelled where
  it occurs, as the error result of `put`.
* `get` never raises, so it is a total function returning the new state and
  the Python return value; `put` returns `Except String LRUCache`, whose
  error case is exactly the AttributeError above.
-/

/-- One cache entry: the `key`/`value` fields of the Python `Node` class.
The `prev`/`next` fields are represented by the node's position in the
`order` list of the cache state. -/
structure Node where
  key : Int
  value : Int
deriving DecidableEq, Repr

/-- Lookup in the association list modelling the Python dict `self.cache`. -/
def dictLookup (c : List (Int × Node)) (k : Int) : Option Node :=
  match c with
  | [] => none
  | (k1, n) :: rest => if k1 = k then some n else dictLookup rest k

/-- Deletion `del self.cache[k]` on the association list: removes every
binding of `k` (the dict holds at most one). -/
def dictErase (c : List (Int × Node)) (k : Int) : List (Int × Node) :=
  c.filter (fun p => !(p.1 == k))

/-- Assignment `self.cache[k] = n` on the association list: overwrites any
existing binding of `k`. -/
def dictInsert (c : List (Int × Node)) (k : Int) (n : Node) : List (Int × Node) :=
  (k, n) :: dictErase c k

/-- The state of a `LRUCache` object: the stored `capacity`, the dict
`cache`, and the doubly linked list represented by the sequence `order` of
entries between the head sentinel and the tail sentinel (most-recently-used
first). -/
structure LRUCache where
  capacity : Int
  cache : List (Int × Node)
  order : List Node
deriving DecidableEq, Repr

namespace LRUCache

/-- `LRUCache.__init__(capacity)`: stores the capacity unchanged (the
source performs no validation) and links the two sentinels to each other,
so the list of entries between them is empty and the dict is empty. -/
def init (capacity : Int) : LRUCache :=
  { capacity := capacity, cache := [], order := [] }

/-- `LRUCache._remove(node)`: unlinks `node` from the recency list and
deletes its key from the dict.  On the list representation the unlinking
removes the entry carrying `node.key` (unique in every reachable state). -/
def remove (st : LRUCache) (node : Node) : LRUCache :=
  { st with
    order := st.order.filter (fun n => !(n.key == node.key)),
    cache := dictErase st.cache node.key }

/-- `LRUCache._insert_to_head(node)`: links `node` right after the head
sentinel (new most-recently-used entry) and writes `self.cache[node.key] = node`. -/
def insertToHead (st : LRUCache) (node : Node) : LRUCache :=
  { st with
    order := node :: st.order,
    cache := dictInsert st.cache node.key node }

/-- `LRUCache.get(key)`: on a miss returns `-1` and touches nothing; on a
hit detaches the node, reinserts it at the head, and returns its value. -/
def get (st : LRUCache) (key : Int) : LRUCache × Int :=
  match dictLookup st.cache key with
  | none => (st, -1)
  | some node => ((st.remove node).insertToHead node, node.value)

/-- `LRUCache.put(key, value)`: removes an existing binding of `key`; then,
if the dict is at capacity, evicts `self.tail.prev`; finally inserts a
fresh node at the head.  When the list is empty, `self.tail.prev` is the
head sentinel and `self._remove(lru)` evaluates `None.next`, raising
AttributeError: that is the error result. -/
def put (st : LRUCache) (key value : Int) : Except String LRUCache := do
  let st1 :=
    match dictLookup st.cache key with
    | some node => st.remove node
    | none => st
  let st2 ←
    if (st1.cache.length : Int) = st1.capacity then
      match st1.order.getLast? with
      | some lru => pure (st1.remove lru)
      | none => throw "AttributeError: NoneType object has no attribute next"
    else
      pure st1
  pure (st2.insertToHead { key := key, value := value })

end LRUCache

/-- One public operation of the cache API. -/
inductive Op where
  | get (key : Int)
  | put (key value : Int)
deriving DecidableEq, Repr

/-- Run one operation, keeping only the state (a `get` also returns a
value, dropped here). -/
def runOp (st : LRUCache) : Op → Except String LRUCache
  | .get k => pure (st.get k).1
  | .put k v => st.put k v

/-- Run a sequence of operations from a state, stopping at the first
error. -/
def runOps (st : LRUCache) : List Op → Except String LRUCache
  | [] => pure st
  | op :: ops => do runOps (← runOp st op) ops

/-- Run a sequence of operations, collecting the value returned by each
`get` (the printed outputs of the demo at the bottom of the source file). -/
def runTrace (st : LRUCache) : List Op → Except String (LRUCache × List Int)
  | [] => pure (st, [])
  | .get k :: ops => do
      let res := st.get k
      let rest ← runTrace res.1 ops
      pure (rest.1, res.2 :: rest.2)
  | .put k v :: ops => do
      let st1 ← st.put k v
      runTrace st1 ops

/-- Keys bound in the dict, in representation order. -/
def cacheKeys (st : LRUCache) : List Int :=
  st.cache.map Prod.fst

/-- Keys of the entries reachable by traversing the recency list from the
head sentinel to the tail sentinel. -/
def orderKeys (st : LRUCache) : List Int :=
  st.order.map Node.key

/-! ### Association-list lemmas -/

theorem dictLookup_isSome_iff (c : List (Int × Node)) (k : Int) :
    (dictLookup c k).isSome = true ↔ k ∈ c.map Prod.fst := by
  induction c with
  | nil => simp [dictLookup]
  | cons p rest ih =>
      rcases p with ⟨k1, n⟩
      simp only [List.map_cons, List.mem_cons]
      by_cases h : k1 = k
      · simp [dictLookup, if_pos h, h.symm]
      · rw [show dictLookup ((k1, n) :: rest) k = dictLookup rest k by
          simp [dictLookup, if_neg h]]
        rw [ih]
        constructor
        · exact fun hm => Or.inr hm
        · rintro (rfl | hm)
          · exact absurd rfl h
          · exact hm

theorem dictLookup_eq_none_iff (c : List (Int × Node)) (k : Int) :
    dictLookup c k = none ↔ k ∉ c.map Prod.fst := by
  rw [← dictLookup_isSome_iff]
  cases dictLookup c k <;> simp

theorem dictLookup_mem (c : List (Int × Node)) (k : Int) (n : Node)
    (h : dictLookup c k = some n) : (k, n) ∈ c := by
  induction c with
  | nil => simp [dictLookup] at h
  | cons p rest ih =>
      rcases p with ⟨k1, m⟩
      by_cases hk : k1 = k
      · simp only [dictLookup, if_pos hk] at h
        subst hk
        cases h
        exact List.mem_cons_self _ _
      · simp only [dictLookup, if_neg hk] at h
        exact List.mem_cons_of_mem _ (ih h)

theorem map_fst_dictErase (c : List (Int × Node)) (k : Int) :
    (dictErase c k).map Prod.fst = (c.map Prod.fst).filter (fun j => !(j == k)) := by
  induction c with
  | nil => rfl
  | cons p rest ih =>
      by_cases h : p.1 = k <;>
        simp [dictErase, List.filter_cons, h, ih] <;>
        simp [dictErase] at ih <;> exact ih

theorem map_key_filter (o : List Node) (k : Int) :
    ((o.filter fun n => !(n.key == k)).map Node.key) =
      (o.map Node.key).filter (fun j => !(j == k)) := by
  induction o with
  | nil => rfl
  | cons n rest ih =>
      by_cases h : n.key = k <;>
        simp [List.filter_cons, h, ih]

theorem dictErase_of_not_mem (c : List (Int × Node)) (k : Int)
    (h : k ∉ c.map Prod.fst) : dictErase c k = c := by
  apply List.filter_eq_self.mpr
  intro p hp
  have hmem : p.1 ∈ c.map Prod.fst := List.mem_map_of_mem Prod.fst hp
  simp only [Bool.not_eq_true', beq_eq_false_iff_ne]
  exact fun hc => h (hc ▸ hmem)

theorem length_dictErase_add_one (c : List (Int × Node)) (k : Int)
    (hnd : (c.map Prod.fst).Nodup) (hmem : k ∈ c.map Prod.fst) :
    (dictErase c k).length + 1 = c.length := by
  induction c with
  | nil => simp at hmem
  | cons p rest ih =>
      simp only [List.map_cons, List.nodup_cons] at hnd
      simp only [List.map_cons, List.mem_cons] at hmem
      simp only [dictErase, List.filter_cons] at ih ⊢
      by_cases h : p.1 = k
      · rw [if_neg (by simp [h])]
        have hrest : dictErase rest k = rest :=
          dictErase_of_not_mem rest k (by rw [← h]; exact hnd.1)
        simp only [dictErase] at hrest
        rw [hrest, List.length_cons]
      · have hm2 : k ∈ rest.map Prod.fst := by
          rcases hmem with h1 | h1
          · exact absurd h1.symm h
          · exact h1
        rw [if_pos (by simp [h])]
        have := ih hnd.2 hm2
        simp only [List.length_cons]
        omega

theorem dictLookup_dictErase (c : List (Int × Node)) (k j : Int) :
    dictLookup (dictErase c k) j = if j = k then none else dictLookup c j := by
  induction c with
  | nil => simp [dictErase, dictLookup]
  | cons p rest ih =>
      rcases p with ⟨k1, n⟩
      simp only [dictErase, List.filter_cons] at ih ⊢
      by_cases hp : k1 = k
      · rw [if_neg (by simp [hp])]
        rw [ih]
        by_cases hj : j = k
        · simp [hj]
        · rw [if_neg hj, if_neg hj]
          have hpj : ¬ (k1 = j) := by rw [hp]; exact fun hc => hj hc.symm
          simp [dictLookup, if_neg hpj]
      · rw [if_pos (by simp [hp])]
        by_cases hpj : k1 = j
        · have hj : ¬ (j = k) := by rw [← hpj]; exact hp
          simp [dictLookup, if_pos hpj, if_neg hj]
        · simp only [dictLookup, if_neg hpj]
          exact ih

theorem mem_of_getLast?_eq_some (l : List Node) (a : Node)
    (h : l.getLast? = some a) : a ∈ l := by
  rcases List.mem_getLast?_eq_getLast (Option.mem_def.mpr h) with ⟨hne, rfl⟩
  exact List.getLast_mem hne

/-! ### The cache invariant

In every state reachable from a construction, the keys occurring in the
recency list are pairwise distinct, the dict binds exactly the keys of the
list (each to the node carrying that key), and the dict holds at most
`capacity` bindings. -/

def CacheInv (st : LRUCache) : Prop :=
  (orderKeys st).Nodup ∧
  (cacheKeys st).Perm (orderKeys st) ∧
  (∀ p ∈ st.cache, p.2.key = p.1) ∧
  (st.cache.length : Int) ≤ st.capacity

instance (st : LRUCache) : Decidable (CacheInv st) := by
  unfold CacheInv
  infer_instance

theorem inv_init (c : Int) (h : 0 ≤ c) : CacheInv (LRUCache.init c) := by
  refine ⟨List.nodup_nil, List.Perm.refl _, ?_, by simpa [LRUCache.init]⟩
  intro p hp
  simp [LRUCache.init] at hp

theorem inv_keyMatch (st : LRUCache) (k : Int) (n : Node) (hInv : CacheInv st)
    (h : dictLookup st.cache k = some n) : n.key = k :=
  hInv.2.2.1 (k, n) (dictLookup_mem _ _ _ h)

theorem inv_cacheKeys_nodup (st : LRUCache) (hInv : CacheInv st) :
    (cacheKeys st).Nodup :=
  hInv.2.1.nodup_iff.mpr hInv.1

theorem remove_cacheKeys (st : LRUCache) (n : Node) :
    cacheKeys (st.remove n) = (cacheKeys st).filter (fun j => !(j == n.key)) :=
  map_fst_dictErase st.cache n.key

theorem remove_orderKeys (st : LRUCache) (n : Node) :
    orderKeys (st.remove n) = (orderKeys st).filter (fun j => !(j == n.key)) :=
  map_key_filter st.order n.key

theorem inv_remove (st : LRUCache) (n : Node) (hInv : CacheInv st) :
    CacheInv (st.remove n) := by
  obtain ⟨hnd, hperm, hpair, hlen⟩ := hInv
  refine ⟨?_, ?_, ?_, ?_⟩
  · rw [remove_orderKeys]
    exact hnd.filter _
  · rw [remove_cacheKeys, remove_orderKeys]
    exact hperm.filter _
  · intro p hp
    exact hpair p (List.mem_of_mem_filter hp)
  · have h1 : (st.remove n).cache.length ≤ st.cache.length :=
      List.length_filter_le _ _
    have h2 : ((st.remove n).cache.length : Int) ≤ (st.cache.length : Int) := by
      exact_mod_cast h1
    exact le_trans h2 hlen

theorem insertToHead_cache (st : LRUCache) (n : Node)
    (habs : n.key ∉ cacheKeys st) :
    (st.insertToHead n).cache = (n.key, n) :: st.cache := by
  simp [LRUCache.insertToHead, dictInsert, dictErase_of_not_mem st.cache n.key habs]

theorem inv_insertToHead (st : LRUCache) (n : Node) (hInv : CacheInv st)
    (habs : n.key ∉ cacheKeys st)
    (hroom : (st.cache.length : Int) + 1 ≤ st.capacity) :
    CacheInv (st.insertToHead n) := by
  obtain ⟨hnd, hperm, hpair, hlen⟩ := hInv
  have hc := insertToHead_cache st n habs
  have habsO : n.key ∉ orderKeys st := fun hm => habs (hperm.mem_iff.mpr hm)
  refine ⟨?_, ?_, ?_, ?_⟩
  · exact List.nodup_cons.mpr ⟨habsO, hnd⟩
  · show List.Perm (cacheKeys (st.insertToHead n)) (orderKeys (st.insertToHead n))
    have h1 : cacheKeys (st.insertToHead n) = n.key :: cacheKeys st := by
      rw [cacheKeys, hc, List.map_cons]
      rfl
    have h2 : orderKeys (st.insertToHead n) = n.key :: orderKeys st := rfl
    rw [h1, h2]
    exact hperm.cons _
  · intro p hp
    rw [hc] at hp
    rcases List.mem_cons.mp hp with rfl | hp
    · rfl
    · exact hpair p hp
  · have h1 : (st.insertToHead n).cache.length = st.cache.length + 1 := by
      rw [hc, List.length_cons]
    rw [h1]
    push_cast
    exact hroom

/-! ### Operation-level lemmas -/

theorem get_miss (st : LRUCache) (k : Int)
    (h : dictLookup st.cache k = none) : st.get k = (st, -1) := by
  simp [LRUCache.get, h]

theorem get_hit (st : LRUCache) (k : Int) (n : Node)
    (h : dictLookup st.cache k = some n) :
    st.get k = ((st.remove n).insertToHead n, n.value) := by
  simp [LRUCache.get, h]

theorem key_mem_of_lookup (st : LRUCache) (k : Int) (n : Node)
    (h : dictLookup st.cache k = some n) : k ∈ cacheKeys st := by
  apply (dictLookup_isSome_iff st.cache k).mp
  rw [h]
  rfl

theorem length_remove_of_mem (st : LRUCache) (n : Node) (hInv : CacheInv st)
    (hmem : n.key ∈ cacheKeys st) :
    (st.remove n).cache.length + 1 = st.cache.length :=
  length_dictErase_add_one st.cache n.key (inv_cacheKeys_nodup st hInv) hmem

theorem inv_get (st : LRUCache) (k : Int) (hInv : CacheInv st) :
    CacheInv (st.get k).1 := by
  cases hlook : dictLookup st.cache k with
  | none =>
      rw [get_miss st k hlook]
      exact hInv
  | some n =>
      rw [get_hit st k n hlook]
      have hkey : n.key = k := inv_keyMatch st k n hInv hlook
      have hmem : n.key ∈ cacheKeys st := by
        rw [hkey]
        exact key_mem_of_lookup st k n hlook
      apply inv_insertToHead _ _ (inv_remove st n hInv)
      · rw [remove_cacheKeys]
        simp [List.mem_filter]
      · have h1 := length_remove_of_mem st n hInv hmem
        have h2 : ((st.remove n).cache.length : Int) + 1 = (st.cache.length : Int) := by
          exact_mod_cast h1
        have h3 : (st.remove n).capacity = st.capacity := rfl
        rw [h3, h2]
        exact hInv.2.2.2

theorem put_miss_notfull (st : LRUCache) (k v : Int)
    (hlook : dictLookup st.cache k = none)
    (hfull : ¬ ((st.cache.length : Int) = st.capacity)) :
    st.put k v = .ok (st.insertToHead { key := k, value := v }) := by
  simp only [LRUCache.put, hlook, if_neg hfull]
  rfl

theorem put_miss_full (st : LRUCache) (k v : Int) (lru : Node)
    (hlook : dictLookup st.cache k = none)
    (hfull : (st.cache.length : Int) = st.capacity)
    (hlast : st.order.getLast? = some lru) :
    st.put k v = .ok ((st.remove lru).insertToHead { key := k, value := v }) := by
  simp only [LRUCache.put, hlook, if_pos hfull, hlast]
  rfl

theorem put_miss_full_empty (st : LRUCache) (k v : Int)
    (hlook : dictLookup st.cache k = none)
    (hfull : (st.cache.length : Int) = st.capacity)
    (hlast : st.order.getLast? = none) :
    st.put k v = .error "AttributeError: NoneType object has no attribute next" := by
  simp only [LRUCache.put, hlook, if_pos hfull, hlast]
  rfl

theorem put_hit_reduces (st : LRUCache) (k v : Int) (n : Node)
    (hlook : dictLookup st.cache k = some n)
    (hfull : ¬ (((st.remove n).cache.length : Int) = st.capacity)) :
    st.put k v = .ok ((st.remove n).insertToHead { key := k, value := v }) := by
  simp only [LRUCache.put, hlook]
  rw [if_neg (by rw [show (st.remove n).capacity = st.capacity from rfl]; exact hfull)]
  rfl

theorem put_hit_of_inv (st : LRUCache) (k v : Int) (n : Node) (hInv : CacheInv st)
    (hlook : dictLookup st.cache k = some n) :
    st.put k v = .ok ((st.remove n).insertToHead { key := k, value := v }) := by
  have hkey : n.key = k := inv_keyMatch st k n hInv hlook
  have hmem : n.key ∈ cacheKeys st := by
    rw [hkey]
    exact key_mem_of_lookup st k n hlook
  have h1 := length_remove_of_mem st n hInv hmem
  have hle := hInv.2.2.2
  apply put_hit_reduces st k v n hlook
  intro hc
  omega

theorem inv_put (st st2 : LRUCache) (k v : Int) (hInv : CacheInv st)
    (h : st.put k v = .ok st2) : CacheInv st2 := by
  cases hlook : dictLookup st.cache k with
  | some n =>
      rw [put_hit_of_inv st k v n hInv hlook] at h
      cases h
      have hkey : n.key = k := inv_keyMatch st k n hInv hlook
      have hmem : n.key ∈ cacheKeys st := by
        rw [hkey]
        exact key_mem_of_lookup st k n hlook
      apply inv_insertToHead _ _ (inv_remove st n hInv)
      · show k ∉ cacheKeys (st.remove n)
        rw [remove_cacheKeys, hkey]
        simp [List.mem_filter]
      · have h1 := length_remove_of_mem st n hInv hmem
        have hle := hInv.2.2.2
        show ((st.remove n).cache.length : Int) + 1 ≤ (st.remove n).capacity
        rw [show (st.remove n).capacity = st.capacity from rfl]
        omega
  | none =>
      have habs : k ∉ cacheKeys st := (dictLookup_eq_none_iff _ _).mp hlook
      by_cases hfull : (st.cache.length : Int) = st.capacity
      · cases hlast : st.order.getLast? with
        | none =>
            rw [put_miss_full_empty st k v hlook hfull hlast] at h
            cases h
        | some lru =>
            rw [put_miss_full st k v lru hlook hfull hlast] at h
            cases h
            have hmemO : lru.key ∈ orderKeys st :=
              List.mem_map_of_mem Node.key (mem_of_getLast?_eq_some st.order lru hlast)
            have hmemC : lru.key ∈ cacheKeys st := hInv.2.1.mem_iff.mpr hmemO
            apply inv_insertToHead _ _ (inv_remove st lru hInv)
            · show k ∉ cacheKeys (st.remove lru)
              rw [remove_cacheKeys]
              intro hc
              exact habs (List.mem_of_mem_filter hc)
            · have h1 := length_remove_of_mem st lru hInv hmemC
              show ((st.remove lru).cache.length : Int) + 1 ≤ (st.remove lru).capacity
              rw [show (st.remove lru).capacity = st.capacity from rfl]
              omega
      · rw [put_miss_notfull st k v hlook hfull] at h
        cases h
        apply inv_insertToHead _ _ hInv
        · exact habs
        · have hle := hInv.2.2.2
          omega

theorem put_ok_of_pos (st : LRUCache) (k v : Int) (hInv : CacheInv st)
    (hpos : 0 < st.capacity) : ∃ st2, st.put k v = Except.ok st2 := by
  cases hlook : dictLookup st.cache k with
  | some n => exact ⟨_, put_hit_of_inv st k v n hInv hlook⟩
  | none =>
      by_cases hfull : (st.cache.length : Int) = st.capacity
      · have hord : st.order ≠ [] := by
          intro hc
          have hOK : orderKeys st = [] := by
            rw [orderKeys, hc]
            rfl
          have hlenEq := hInv.2.1.length_eq
          rw [hOK, List.length_nil] at hlenEq
          rw [cacheKeys, List.length_map] at hlenEq
          rw [hlenEq] at hfull
          omega
        cases hlast : st.order.getLast? with
        | some lru => exact ⟨_, put_miss_full st k v lru hlook hfull hlast⟩
        | none => exact absurd (List.getLast?_eq_none_iff.mp hlast) hord
      · exact ⟨_, put_miss_notfull st k v hlook hfull⟩

theorem put_ok_capacity (st st2 : LRUCache) (k v : Int) (hInv : CacheInv st)
    (h : st.put k v = .ok st2) : st2.capacity = st.capacity := by
  cases hlook : dictLookup st.cache k with
  | some n =>
      rw [put_hit_of_inv st k v n hInv hlook] at h
      cases h
      rfl
  | none =>
      by_cases hfull : (st.cache.length : Int) = st.capacity
      · cases hlast : st.order.getLast? with
        | none =>
            rw [put_miss_full_empty st k v hlook hfull hlast] at h
            cases h
        | some lru =>
            rw [put_miss_full st k v lru hlook hfull hlast] at h
            cases h
            rfl
      · rw [put_miss_notfull st k v hlook hfull] at h
        cases h
        rfl

theorem get_capacity (st : LRUCache) (k : Int) :
    (st.get k).1.capacity = st.capacity := by
  cases hlook : dictLookup st.cache k with
  | none =>
      rw [get_miss st k hlook]
  | some n =>
      rw [get_hit st k n hlook]
      rfl

theorem runOp_ok (st st2 : LRUCache) (op : Op) (hInv : CacheInv st)
    (h : runOp st op = .ok st2) :
    CacheInv st2 ∧ st2.capacity = st.capacity := by
  cases op with
  | get k =>
      have h2 : Except.ok (st.get k).1 = Except.ok st2 := h
      cases h2
      exact ⟨inv_get st k hInv, get_capacity st k⟩
  | put k v =>
      exact ⟨inv_put st st2 k v hInv h, put_ok_capacity st st2 k v hInv h⟩

theorem runOp_total (st : LRUCache) (op : Op) (hInv : CacheInv st)
    (hpos : 0 < st.capacity) : ∃ st2, runOp st op = .ok st2 := by
  cases op with
  | get k => exact ⟨(st.get k).1, rfl⟩
  | put k v => exact put_ok_of_pos st k v hInv hpos

theorem runOps_ok (ops : List Op) :
    ∀ st : LRUCache, CacheInv st → 0 < st.capacity →
      ∃ st2, runOps st ops = .ok st2 ∧ CacheInv st2 ∧ st2.capacity = st.capacity := by
  induction ops with
  | nil =>
      intro st hInv hpos
      exact ⟨st, rfl, hInv, rfl⟩
  | cons op ops ih =>
      intro st hInv hpos
      obtain ⟨st1, h1⟩ := runOp_total st op hInv hpos
      obtain ⟨hInv1, hcap1⟩ := runOp_ok st st1 op hInv h1
      obtain ⟨st2, h2, hInv2, hcap2⟩ := ih st1 hInv1 (by rw [hcap1]; exact hpos)
      refine ⟨st2, ?_, hInv2, by rw [hcap2, hcap1]⟩
      have hstep : runOps st (op :: ops) = Except.bind (runOp st op) (fun x => runOps x ops) := rfl
      rw [hstep, h1]
      exact h2

theorem dictLookup_dictInsert (c : List (Int × Node)) (k j : Int) (n : Node) :
    dictLookup (dictInsert c k n) j = if j = k then some n else dictLookup c j := by
  show dictLookup ((k, n) :: dictErase c k) j = _
  by_cases h : k = j
  · rw [show dictLookup ((k, n) :: dictErase c k) j = some n by
      simp [dictLookup, if_pos h]]
    rw [if_pos h.symm]
  · rw [show dictLookup ((k, n) :: dictErase c k) j = dictLookup (dictErase c k) j by
      simp [dictLookup, if_neg h]]
    rw [dictLookup_dictErase, if_neg (fun hc => h hc.symm)]
    rw [if_neg (fun hc => h hc.symm)]

theorem filter_idem {α : Type} (p : α → Bool) (l : List α) :
    (l.filter p).filter p = l.filter p :=
  List.filter_eq_self.mpr (fun _ ha => List.of_mem_filter ha)

theorem put_ok_shape (st st2 : LRUCache) (k v : Int) (hInv : CacheInv st)
    (h : st.put k v = .ok st2) :
    ∃ stb : LRUCache, st2 = stb.insertToHead { key := k, value := v } := by
  cases hlook : dictLookup st.cache k with
  | some n =>
      rw [put_hit_of_inv st k v n hInv hlook] at h
      cases h
      exact ⟨st.remove n, rfl⟩
  | none =>
      by_cases hfull : (st.cache.length : Int) = st.capacity
      · cases hlast : st.order.getLast? with
        | none =>
            rw [put_miss_full_empty st k v hlook hfull hlast] at h
            cases h
        | some lru =>
            rw [put_miss_full st k v lru hlook hfull hlast] at h
            cases h
            exact ⟨st.remove lru, rfl⟩
      · rw [put_miss_notfull st k v hlook hfull] at h
        cases h
        exact ⟨st, rfl⟩

theorem inv_of_runOps (c : Int) (ops : List Op) (st : LRUCache) (hpos : 0 < c)
    (hrun : runOps (LRUCache.init c) ops = .ok st) :
    CacheInv st ∧ st.capacity = c := by
  obtain ⟨st2, hrun2, hInv2, hcap⟩ :=
    runOps_ok ops (LRUCache.init c) (inv_init c hpos.le) hpos
  rw [hrun] at hrun2
  cases hrun2
  exact ⟨hInv2, hcap⟩

/-! ### The claims -/

/-- C3: on a cache of capacity 2 the demo sequence put(1,1); put(2,2);
get(1); put(3,3); get(2); put(4,4); get(1); get(3); get(4) yields the get
results 1, -1 (absent), -1 (absent), 3, 4 in that order; moreover after the
prefix ending in put(3,3) key 2 is gone while keys 1 and 3 are present with
the size still 2 (put(3,3) evicted exactly key 2), and after the prefix
ending in put(4,4) key 1 is gone while keys 3 and 4 are present with the
size still 2 (put(4,4) evicted exactly key 1). -/
theorem C3_demo_trace :
    (runTrace (LRUCache.init 2)
      [Op.put 1 1, Op.put 2 2, Op.get 1, Op.put 3 3, Op.get 2,
       Op.put 4 4, Op.get 1, Op.get 3, Op.get 4]).map Prod.snd =
      .ok [1, -1, -1, 3, 4] ∧
    (∃ st4, runOps (LRUCache.init 2)
        [Op.put 1 1, Op.put 2 2, Op.get 1, Op.put 3 3] = .ok st4 ∧
      dictLookup st4.cache 2 = none ∧
      (dictLookup st4.cache 1).isSome = true ∧
      (dictLookup st4.cache 3).isSome = true ∧
      st4.cache.length = 2) ∧
    (∃ st6, runOps (LRUCache.init 2)
        [Op.put 1 1, Op.put 2 2, Op.get 1, Op.put 3 3, Op.get 2, Op.put 4 4] =
        .ok st6 ∧
      dictLookup st6.cache 1 = none ∧
      (dictLookup st6.cache 3).isSome = true ∧
      (dictLookup st6.cache 4).isSome = true ∧
      st6.cache.length = 2) := by
  refine ⟨rfl, ⟨_, rfl, rfl, rfl, rfl, rfl⟩, ⟨_, rfl, rfl, rfl, rfl, rfl⟩⟩

/-- C5 counterexample: the claim says a non-positive capacity is rejected
with a clear error at construction time, but `__init__` performs no
validation at all: constructing with capacity 0 (or any negative capacity)
succeeds and stores the capacity unchanged, and the fault instead surfaces
on the first `put` of the capacity-0 cache, as an AttributeError from
dereferencing the head sentinel's null `prev`. -/
theorem C5_counterexample :
    LRUCache.init 0 = { capacity := 0, cache := [], order := [] } ∧
    LRUCache.init (-7) = { capacity := -7, cache := [], order := [] } ∧
    (LRUCache.init 0).put 1 1 =
      .error "AttributeError: NoneType object has no attribute next" :=
  ⟨rfl, rfl, rfl⟩

/-- C5 (amended): construction with a non-positive capacity is accepted
silently — the constructor stores the capacity unchanged and returns the
normal empty cache state — and the invalid capacity surfaces only at
operation time: with capacity 0, every `put` on the fresh cache faults
(AttributeError) instead of completing. -/
theorem C5_amended (c : Int) (hc : c ≤ 0) :
    LRUCache.init c = { capacity := c, cache := [], order := [] } ∧
    (∀ k v : Int, (LRUCache.init 0).put k v =
      .error "AttributeError: NoneType object has no attribute next") :=
  ⟨rfl, fun k v => put_miss_full_empty (LRUCache.init 0) k v rfl rfl rfl⟩

theorem C5_amended_witness :
    LRUCache.init (-3) = { capacity := -3, cache := [], order := [] } ∧
    (LRUCache.init 0).put 9 9 =
      .error "AttributeError: NoneType object has no attribute next" :=
  ⟨(C5_amended (-3) (by decide)).1, (C5_amended (-3) (by decide)).2 9 9⟩

/-- C7: a `get` of a key not present in the index returns the absent value
-1 and performs no mutation at all: the resulting state is exactly the
state before the call. -/
theorem C7_get_miss_no_mutation (st : LRUCache) (k : Int)
    (h : dictLookup st.cache k = none) :
    st.get k = (st, -1) :=
  get_miss st k h

theorem C7_get_miss_no_mutation_witness :
    (LRUCache.init 2).get 5 = (LRUCache.init 2, -1) ∧
    (LRUCache.init 2).cache.length = 0 :=
  ⟨C7_get_miss_no_mutation (LRUCache.init 2) 5 rfl, rfl⟩

/-- C9: the absent outcome of `get` is the integer -1 and is not
distinguishable from a stored value: when key K is present with associated
value -1 and key J is absent, `get K` and `get J` return exactly the same
result -1. -/
theorem C9_minus_one_ambiguous (st : LRUCache) (k j : Int) (n : Node)
    (hk : dictLookup st.cache k = some n) (hval : n.value = -1)
    (hj : dictLookup st.cache j = none) :
    (st.get k).2 = -1 ∧ (st.get j).2 = -1 ∧ (st.get k).2 = (st.get j).2 := by
  rw [get_hit st k n hk, get_miss st j hj]
  exact ⟨hval, rfl, hval⟩

theorem C9_minus_one_ambiguous_witness :
    ((LRUCache.mk 2 [(1, Node.mk 1 (-1))] [Node.mk 1 (-1)]).get 1).2 = -1 ∧
    ((LRUCache.mk 2 [(1, Node.mk 1 (-1))] [Node.mk 1 (-1)]).get 2).2 = -1 ∧
    ((LRUCache.mk 2 [(1, Node.mk 1 (-1))] [Node.mk 1 (-1)]).get 1).2 =
      ((LRUCache.mk 2 [(1, Node.mk 1 (-1))] [Node.mk 1 (-1)]).get 2).2 :=
  C9_minus_one_ambiguous _ 1 2 (Node.mk 1 (-1)) (by decide) rfl (by decide)

/-- C10: with capacity 0 the first `put` finds `len(cache) == capacity`
(0 == 0), selects `self.tail.prev` — the head sentinel itself, since the
recency list is empty — as the eviction victim, and `_remove` dereferences
the head sentinel's null `prev` reference, so the operation faults: in this
embedding, `put` returns the AttributeError error branch.  For every
positive capacity, from every state reachable from construction, `put`
never reaches that branch: whenever the dict is full the recency list is
nonempty, so the victim is a real entry and `put` returns a state. -/
theorem C10_capacity_zero_fault :
    (∀ k v : Int, (LRUCache.init 0).put k v =
      .error "AttributeError: NoneType object has no attribute next") ∧
    (∀ (c : Int) (ops : List Op) (st : LRUCache) (k v : Int), 0 < c →
      runOps (LRUCache.init c) ops = .ok st →
      ∃ st2, st.put k v = .ok st2) := by
  constructor
  · exact fun k v => put_miss_full_empty (LRUCache.init 0) k v rfl rfl rfl
  · intro c ops st k v hpos hrun
    obtain ⟨hInv, hcap⟩ := inv_of_runOps c ops st hpos hrun
    exact put_ok_of_pos st k v hInv (by rw [hcap]; exact hpos)

theorem C10_capacity_zero_fault_witness :
    (LRUCache.init 0).put 1 1 =
      .error "AttributeError: NoneType object has no attribute next" ∧
    ∃ st2, (LRUCache.init 1).put 7 8 = .ok st2 :=
  ⟨C10_capacity_zero_fault.1 1 1,
   C10_capacity_zero_fault.2 1 [] (LRUCache.init 1) 7 8 (by decide) rfl⟩

/-- C1: for every cache constructed with a positive capacity and every
finite sequence of get/put operations, every operation completes, and after
the sequence (hence after each operation, since the sequence is arbitrary)
the set of keys in the dict equals the set of keys of the entries reachable
by traversing the recency list from the head sentinel to the tail sentinel,
and the number of keys never exceeds the capacity. -/
theorem C1_index_list_consistency (c : Int) (ops : List Op) (hpos : 0 < c) :
    ∃ st : LRUCache, runOps (LRUCache.init c) ops = .ok st ∧
      (∀ k : Int, (dictLookup st.cache k).isSome = true ↔ k ∈ orderKeys st) ∧
      (st.cache.length : Int) ≤ c := by
  obtain ⟨st, hrun, hInv, hcap⟩ :=
    runOps_ok ops (LRUCache.init c) (inv_init c hpos.le) hpos
  refine ⟨st, hrun, ?_, ?_⟩
  · intro k
    rw [dictLookup_isSome_iff]
    exact hInv.2.1.mem_iff
  · have hlen := hInv.2.2.2
    rw [show (LRUCache.init c).capacity = c from rfl] at hcap
    rw [hcap] at hlen
    exact hlen

theorem C1_index_list_consistency_witness :
    ∃ st : LRUCache,
      runOps (LRUCache.init 2)
        [Op.put 1 1, Op.put 2 2, Op.get 1, Op.put 3 3] = .ok st ∧
      (∀ k : Int, (dictLookup st.cache k).isSome = true ↔ k ∈ orderKeys st) ∧
      (st.cache.length : Int) ≤ 2 :=
  C1_index_list_consistency 2 [Op.put 1 1, Op.put 2 2, Op.get 1, Op.put 3 3]
    (by decide)

/-- C6: in every cache state reachable from a construction with positive
capacity, after a `get` hit on a present key K the entry at the head of the
recency list (the first one reached from the head sentinel) carries key K,
and after any successful `put(K, V)` the entry at the head carries key K. -/
theorem C6_mru_after_touch (c : Int) (ops : List Op) (st : LRUCache)
    (hpos : 0 < c) (hrun : runOps (LRUCache.init c) ops = .ok st) :
    (∀ (k : Int) (n : Node), dictLookup st.cache k = some n →
      (orderKeys (st.get k).1).head? = some k) ∧
    (∀ (k v : Int) (st2 : LRUCache), st.put k v = .ok st2 →
      (orderKeys st2).head? = some k) := by
  obtain ⟨hInv, _⟩ := inv_of_runOps c ops st hpos hrun
  constructor
  · intro k n hlook
    rw [get_hit st k n hlook]
    show some n.key = some k
    rw [inv_keyMatch st k n hInv hlook]
  · intro k v st2 hput
    obtain ⟨stb, rfl⟩ := put_ok_shape st st2 k v hInv hput
    rfl

theorem C6_mru_after_touch_witness :
    (orderKeys ((LRUCache.mk 2 [(1, Node.mk 1 1)] [Node.mk 1 1]).get 1).1).head? =
      some 1 :=
  (C6_mru_after_touch 2 [Op.put 1 1]
      (LRUCache.mk 2 [(1, Node.mk 1 1)] [Node.mk 1 1]) (by decide) rfl).1
    1 (Node.mk 1 1) (by decide)

/-- Detaching and reinserting a node that is already at the head of the
recency list (and freshly bound in the dict) is the identity on the state:
the filters and erasures involved are idempotent. -/
theorem remove_insert_self (s : LRUCache) (n : Node) :
    (((s.remove n).insertToHead n).remove n).insertToHead n =
      (s.remove n).insertToHead n := by
  simp only [LRUCache.remove, LRUCache.insertToHead, dictInsert]
  simp [dictErase, List.filter_cons, filter_idem]

/-- C8: in every reachable cache state with a present key K, two
consecutive `get(K)` calls with no intervening mutation return the same
value, and the second call leaves the state (index and recency list)
literally unchanged: the first call moved K to the head, so the second
call's detach-and-reinsert is the identity. -/
theorem C8_get_idempotent (c : Int) (ops : List Op) (st : LRUCache)
    (k : Int) (n : Node) (hpos : 0 < c)
    (hrun : runOps (LRUCache.init c) ops = .ok st)
    (hlook : dictLookup st.cache k = some n) :
    (st.get k).2 = ((st.get k).1.get k).2 ∧
    ((st.get k).1.get k).1 = (st.get k).1 := by
  obtain ⟨hInv, _⟩ := inv_of_runOps c ops st hpos hrun
  have hkey : n.key = k := inv_keyMatch st k n hInv hlook
  have hlook1 : dictLookup ((st.remove n).insertToHead n).cache k = some n := by
    show dictLookup (dictInsert (st.remove n).cache n.key n) k = some n
    rw [dictLookup_dictInsert, if_pos hkey.symm]
  rw [get_hit st k n hlook]
  rw [show (((st.remove n).insertToHead n, n.value) : LRUCache × Int).1 =
        (st.remove n).insertToHead n from rfl]
  rw [get_hit _ k n hlook1]
  exact ⟨rfl, remove_insert_self st n⟩

theorem C8_get_idempotent_witness :
    ((LRUCache.mk 2 [(1, Node.mk 1 5)] [Node.mk 1 5]).get 1).2 =
      (((LRUCache.mk 2 [(1, Node.mk 1 5)] [Node.mk 1 5]).get 1).1.get 1).2 ∧
    (((LRUCache.mk 2 [(1, Node.mk 1 5)] [Node.mk 1 5]).get 1).1.get 1).1 =
      ((LRUCache.mk 2 [(1, Node.mk 1 5)] [Node.mk 1 5]).get 1).1 :=
  C8_get_idempotent 2 [Op.put 1 5] _ 1 (Node.mk 1 5) (by decide) rfl (by decide)

/-- C4: in every reachable cache state with positive capacity, a
`put(K, V)` on a key K already present succeeds, rebinds K to value V,
promotes K to the most-recently-used position (head of the recency list),
evicts nothing — every other key keeps its binding — and leaves the size
unchanged; a subsequent `get(K)` returns V. -/
theorem C4_update_in_place (c : Int) (ops : List Op) (st : LRUCache)
    (k v : Int) (n : Node) (hpos : 0 < c)
    (hrun : runOps (LRUCache.init c) ops = .ok st)
    (hlook : dictLookup st.cache k = some n) :
    ∃ st2, st.put k v = .ok st2 ∧
      dictLookup st2.cache k = some (Node.mk k v) ∧
      (orderKeys st2).head? = some k ∧
      st2.cache.length = st.cache.length ∧
      (∀ j : Int, j ≠ k → dictLookup st2.cache j = dictLookup st.cache j) ∧
      (st2.get k).2 = v := by
  obtain ⟨hInv, _⟩ := inv_of_runOps c ops st hpos hrun
  have hkey : n.key = k := inv_keyMatch st k n hInv hlook
  have hput := put_hit_of_inv st k v n hInv hlook
  have hlook2 : dictLookup ((st.remove n).insertToHead (Node.mk k v)).cache k =
      some (Node.mk k v) := by
    show dictLookup
        (dictInsert (st.remove n).cache (Node.mk k v).key (Node.mk k v)) k = _
    rw [show (Node.mk k v).key = k from rfl, dictLookup_dictInsert, if_pos rfl]
  refine ⟨(st.remove n).insertToHead (Node.mk k v), hput, hlook2, rfl, ?_, ?_, ?_⟩
  · have hmem : n.key ∈ cacheKeys st := by
      rw [hkey]
      exact key_mem_of_lookup st k n hlook
    have h1 := length_remove_of_mem st n hInv hmem
    have habs : (Node.mk k v).key ∉ cacheKeys (st.remove n) := by
      show k ∉ cacheKeys (st.remove n)
      rw [remove_cacheKeys, hkey]
      simp [List.mem_filter]
    rw [insertToHead_cache _ _ habs, List.length_cons]
    omega
  · intro j hj
    show dictLookup
        (dictInsert (st.remove n).cache (Node.mk k v).key (Node.mk k v)) j = _
    rw [show (Node.mk k v).key = k from rfl, dictLookup_dictInsert, if_neg hj]
    show dictLookup (dictErase st.cache n.key) j = _
    rw [dictLookup_dictErase, hkey, if_neg hj]
  · rw [get_hit _ k (Node.mk k v) hlook2]

theorem C4_update_in_place_witness :
    ∃ st2, (LRUCache.mk 2 [(1, Node.mk 1 1)] [Node.mk 1 1]).put 1 10 = .ok st2 ∧
      dictLookup st2.cache 1 = some (Node.mk 1 10) ∧
      (orderKeys st2).head? = some 1 ∧
      st2.cache.length = (LRUCache.mk 2 [(1, Node.mk 1 1)] [Node.mk 1 1]).cache.length ∧
      (∀ j : Int, j ≠ 1 → dictLookup st2.cache j =
        dictLookup (LRUCache.mk 2 [(1, Node.mk 1 1)] [Node.mk 1 1]).cache j) ∧
      (st2.get 1).2 = 10 :=
  C4_update_in_place 2 [Op.put 1 1] _ 1 10 (Node.mk 1 1) (by decide) rfl (by decide)

/-! ### Lemmas for the eviction claim -/

theorem runOps_append (l1 l2 : List Op) :
    ∀ st : LRUCache, runOps st (l1 ++ l2) =
      Except.bind (runOps st l1) (fun s => runOps s l2) := by
  induction l1 with
  | nil =>
      intro st
      rfl
  | cons op l1 ih =>
      intro st
      show Except.bind (runOp st op) (fun x => runOps x (l1 ++ l2)) =
        Except.bind (Except.bind (runOp st op) (fun x => runOps x l1))
          (fun s => runOps s l2)
      cases h : runOp st op with
      | error e => rfl
      | ok st1 =>
          show runOps st1 (l1 ++ l2) =
            Except.bind (runOps st1 l1) (fun s => runOps s l2)
          exact ih st1

/-- Filling a cache with fresh distinct keys while staying within capacity
just stacks the new entries: no eviction happens and the state is computed
exactly. -/
theorem runOps_puts_below (kvs : List (Int × Int)) :
    ∀ st : LRUCache, CacheInv st →
      (kvs.map Prod.fst).Nodup →
      (∀ p ∈ kvs, p.1 ∉ cacheKeys st) →
      (st.cache.length : Int) + kvs.length ≤ st.capacity →
      runOps st (kvs.map fun p => Op.put p.1 p.2) =
        .ok { capacity := st.capacity,
              cache := (kvs.map fun p => (p.1, Node.mk p.1 p.2)).reverse ++ st.cache,
              order := (kvs.map fun p => Node.mk p.1 p.2).reverse ++ st.order } := by
  induction kvs with
  | nil =>
      intro st hInv hnd habs hlen
      rfl
  | cons p rest ih =>
      intro st hInv hnd habs hlen
      have hlook : dictLookup st.cache p.1 = none :=
        (dictLookup_eq_none_iff _ _).mpr (habs p (List.mem_cons_self p rest))
      have hfull : ¬ ((st.cache.length : Int) = st.capacity) := by
        simp only [List.length_cons] at hlen
        push_cast at hlen
        omega
      have hput := put_miss_notfull st p.1 p.2 hlook hfull
      have hstep : runOps st ((p :: rest).map fun q => Op.put q.1 q.2) =
          Except.bind (st.put p.1 p.2)
            (fun x => runOps x (rest.map fun q => Op.put q.1 q.2)) := rfl
      rw [hstep, hput]
      show runOps (st.insertToHead (Node.mk p.1 p.2))
          (rest.map fun q => Op.put q.1 q.2) = _
      have habsp : (Node.mk p.1 p.2).key ∉ cacheKeys st :=
        habs p (List.mem_cons_self p rest)
      have hcache1 := insertToHead_cache st (Node.mk p.1 p.2) habsp
      have hInv1 : CacheInv (st.insertToHead (Node.mk p.1 p.2)) := by
        apply inv_insertToHead st _ hInv habsp
        simp only [List.length_cons] at hlen
        push_cast at hlen
        omega
      have hndc : (p.1 :: rest.map Prod.fst).Nodup := by simpa using hnd
      have hnd1 : (rest.map Prod.fst).Nodup := (List.nodup_cons.mp hndc).2
      have habs1 : ∀ q ∈ rest,
          q.1 ∉ cacheKeys (st.insertToHead (Node.mk p.1 p.2)) := by
        intro q hq
        rw [cacheKeys, hcache1, List.map_cons]
        intro hc
        rcases List.mem_cons.mp hc with hc | hc
        · have hp1 : p.1 ∉ rest.map Prod.fst := (List.nodup_cons.mp hndc).1
          exact hp1 (hc ▸ List.mem_map_of_mem Prod.fst hq)
        · exact habs q (List.mem_cons_of_mem p hq) hc
      have hlen1 : ((st.insertToHead (Node.mk p.1 p.2)).cache.length : Int) +
          (rest.length : Int) ≤ (st.insertToHead (Node.mk p.1 p.2)).capacity := by
        rw [hcache1, List.length_cons]
        show ((st.cache.length + 1 : Nat) : Int) + (rest.length : Int) ≤ st.capacity
        simp only [List.length_cons] at hlen
        push_cast at hlen ⊢
        omega
      have hrest := ih (st.insertToHead (Node.mk p.1 p.2)) hInv1 hnd1 habs1 hlen1
      rw [hrest]
      congr 1
      · show LRUCache.mk _ _ _ = LRUCache.mk _ _ _
        congr 1
        · rw [show (st.insertToHead (Node.mk p.1 p.2)).cache =
              (p.1, Node.mk p.1 p.2) :: st.cache from hcache1]
          rw [List.map_cons, List.reverse_cons, List.append_assoc,
            List.singleton_append]
        · show (rest.map fun q => Node.mk q.1 q.2).reverse ++
              (Node.mk p.1 p.2 :: st.order) = _
          rw [List.map_cons, List.reverse_cons, List.append_assoc,
            List.singleton_append]

theorem insertToHead_lookup (s : LRUCache) (n : Node) (j : Int) :
    dictLookup (s.insertToHead n).cache j =
      if j = n.key then some n else dictLookup s.cache j :=
  dictLookup_dictInsert s.cache n.key j n

theorem remove_lookup (s : LRUCache) (n : Node) (j : Int) :
    dictLookup (s.remove n).cache j =
      if j = n.key then none else dictLookup s.cache j :=
  dictLookup_dictErase s.cache n.key j

/-- C2: in any reachable state of a positive-capacity cache, a `put` of an
absent key while the size equals the capacity evicts exactly the entry at
the least-recently-used end (`self.tail.prev`, the last entry of the
recency list): that entry's key disappears from both the dict and the
list, every other key keeps its binding, the new key is inserted, and the
size is again equal to the capacity.  Moreover, inserting capacity + 1
distinct keys into a fresh cache with no intervening reads evicts exactly
the first-inserted key and no other key. -/
theorem C2_eviction :
    (∀ (c : Int) (ops : List Op) (st : LRUCache) (k v : Int), 0 < c →
      runOps (LRUCache.init c) ops = .ok st →
      dictLookup st.cache k = none →
      (st.cache.length : Int) = c →
      ∃ lru st2, st.order.getLast? = some lru ∧
        st.put k v = .ok st2 ∧
        (st2.cache.length : Int) = c ∧
        dictLookup st2.cache lru.key = none ∧
        lru.key ∉ orderKeys st2 ∧
        (dictLookup st2.cache k).isSome = true ∧
        (∀ j : Int, j ≠ k → j ≠ lru.key →
          dictLookup st2.cache j = dictLookup st.cache j)) ∧
    (∀ (c : Int) (kvs : List (Int × Int)) (p0 : Int × Int), 0 < c →
      (kvs.map Prod.fst).Nodup →
      (kvs.length : Int) = c + 1 →
      kvs.head? = some p0 →
      ∃ st2, runOps (LRUCache.init c) (kvs.map fun p => Op.put p.1 p.2) =
          .ok st2 ∧
        dictLookup st2.cache p0.1 = none ∧
        (∀ p ∈ kvs.drop 1, (dictLookup st2.cache p.1).isSome = true)) := by
  constructor
  · intro c ops st k v hpos hrun hlook hfull
    obtain ⟨hInv, hcap⟩ := inv_of_runOps c ops st hpos hrun
    have hfull2 : (st.cache.length : Int) = st.capacity := by
      rw [hcap]
      exact hfull
    have hord : st.order ≠ [] := by
      intro hc
      have hOK : orderKeys st = [] := by
        rw [orderKeys, hc]
        rfl
      have hlenEq := hInv.2.1.length_eq
      rw [hOK, List.length_nil] at hlenEq
      rw [cacheKeys, List.length_map] at hlenEq
      rw [hlenEq] at hfull
      omega
    obtain ⟨lru, hlast⟩ : ∃ lru, st.order.getLast? = some lru := by
      cases hl : st.order.getLast? with
      | some lru => exact ⟨lru, rfl⟩
      | none => exact absurd (List.getLast?_eq_none_iff.mp hl) hord
    have hput := put_miss_full st k v lru hlook hfull2 hlast
    have hmemO : lru.key ∈ orderKeys st :=
      List.mem_map_of_mem Node.key (mem_of_getLast?_eq_some st.order lru hlast)
    have hmemC : lru.key ∈ cacheKeys st := hInv.2.1.mem_iff.mpr hmemO
    have habsk : k ∉ cacheKeys st := (dictLookup_eq_none_iff _ _).mp hlook
    have hklru : k ≠ lru.key := fun hc => habsk (hc ▸ hmemC)
    refine ⟨lru, (st.remove lru).insertToHead (Node.mk k v), hlast, hput,
      ?_, ?_, ?_, ?_, ?_⟩
    · have h1 := length_remove_of_mem st lru hInv hmemC
      have habs2 : (Node.mk k v).key ∉ cacheKeys (st.remove lru) := by
        show k ∉ cacheKeys (st.remove lru)
        rw [remove_cacheKeys]
        intro hc
        exact habsk (List.mem_of_mem_filter hc)
      rw [insertToHead_cache _ _ habs2, List.length_cons]
      push_cast
      omega
    · rw [insertToHead_lookup, show (Node.mk k v).key = k from rfl,
        if_neg (fun hc => hklru hc.symm), remove_lookup, if_pos rfl]
    · show lru.key ∉ orderKeys ((st.remove lru).insertToHead (Node.mk k v))
      rw [show orderKeys ((st.remove lru).insertToHead (Node.mk k v)) =
          (Node.mk k v).key :: orderKeys (st.remove lru) from rfl]
      rw [remove_orderKeys]
      intro hc
      rcases List.mem_cons.mp hc with hc | hc
      · exact hklru hc.symm
      · have h2 := List.mem_filter.mp hc
        simp at h2
    · rw [insertToHead_lookup, show (Node.mk k v).key = k from rfl, if_pos rfl]
      rfl
    · intro j hjk hjlru
      rw [insertToHead_lookup, show (Node.mk k v).key = k from rfl,
        if_neg hjk, remove_lookup, if_neg hjlru]
  · intro c kvs p0 hpos hnd hlen hhead
    rcases kvs.eq_nil_or_concat' with rfl | ⟨front, plast, rfl⟩
    · simp at hhead
    · have hflen : (front.length : Int) = c := by
        rw [List.length_append] at hlen
        push_cast at hlen
        simp at hlen
        omega
      cases front with
      | nil =>
          exfalso
          rw [show (([] : List (Int × Int)).length : Int) = 0 from rfl] at hflen
          omega
      | cons f0 frest =>
      have hp0 : p0 = f0 := by
        rw [List.cons_append, List.head?_cons] at hhead
        exact (Option.some.inj hhead).symm
      subst hp0
      rw [List.map_append] at hnd
      have hndA : ((p0 :: frest).map Prod.fst).Nodup := hnd.of_append_left
      have hdisj : ((p0 :: frest).map Prod.fst).Disjoint ([plast].map Prod.fst) :=
        (List.nodup_append.mp hnd).2.2
      obtain ⟨stF, hfill, hFcap, hFcache, hFord⟩ :
          ∃ stF : LRUCache,
            runOps (LRUCache.init c) ((p0 :: frest).map fun p => Op.put p.1 p.2) =
              .ok stF ∧
            stF.capacity = c ∧
            stF.cache = ((p0 :: frest).map fun p => (p.1, Node.mk p.1 p.2)).reverse ∧
            stF.order = ((p0 :: frest).map fun p => Node.mk p.1 p.2).reverse := by
        refine ⟨_, runOps_puts_below (p0 :: frest) (LRUCache.init c)
          (inv_init c hpos.le) hndA ?_ ?_, rfl, ?_, ?_⟩
        · intro q hq
          simp [cacheKeys, LRUCache.init]
        · show ((0 : Nat) : Int) + _ ≤ c
          push_cast
          omega
        · simp [LRUCache.init]
        · simp [LRUCache.init]
      have hmemF : ∀ j : Int, j ∈ stF.cache.map Prod.fst ↔
          j ∈ (p0 :: frest).map Prod.fst := by
        intro j
        rw [hFcache]
        simp [List.map_reverse, List.mem_reverse, List.map_map, Function.comp]
        tauto
      have hlookF : dictLookup stF.cache plast.1 = none := by
        rw [dictLookup_eq_none_iff]
        intro hc
        exact hdisj ((hmemF plast.1).mp hc) (by simp)
      have hfullF : (stF.cache.length : Int) = stF.capacity := by
        rw [hFcache, hFcap]
        simp only [List.length_reverse, List.length_map]
        exact hflen
      have hlastF : stF.order.getLast? = some (Node.mk p0.1 p0.2) := by
        rw [hFord, List.getLast?_reverse]
        rfl
      have hput := put_miss_full stF plast.1 plast.2 (Node.mk p0.1 p0.2)
        hlookF hfullF hlastF
      refine ⟨(stF.remove (Node.mk p0.1 p0.2)).insertToHead
        (Node.mk plast.1 plast.2), ?_, ?_, ?_⟩
      · rw [List.map_append, runOps_append, hfill]
        show Except.bind (stF.put plast.1 plast.2) (fun x => runOps x []) = _
        rw [hput]
        rfl
      · rw [insertToHead_lookup, show (Node.mk plast.1 plast.2).key = plast.1 from rfl]
        have hne : ¬ (p0.1 = plast.1) := by
          intro hc
          have hm1 : p0.1 ∈ (p0 :: frest).map Prod.fst := by simp
          have hm2 : p0.1 ∈ [plast].map Prod.fst := by simp [hc]
          exact hdisj hm1 hm2
        rw [if_neg hne, remove_lookup,
          show (Node.mk p0.1 p0.2).key = p0.1 from rfl, if_pos rfl]
      · intro q hq
        have hq2 : q ∈ frest ++ [plast] := hq
        rw [insertToHead_lookup,
          show (Node.mk plast.1 plast.2).key = plast.1 from rfl]
        rcases List.mem_append.mp hq2 with hq3 | hq3
        · have hqfront : q.1 ∈ (p0 :: frest).map Prod.fst :=
            List.mem_map_of_mem Prod.fst (List.mem_cons_of_mem p0 hq3)
          have hqplast : ¬ (q.1 = plast.1) := by
            intro hc
            exact hdisj hqfront (by simp [hc])
          have hqp0 : ¬ (q.1 = p0.1) := by
            intro hc
            have h5 : p0.1 ∉ frest.map Prod.fst :=
              (List.nodup_cons.mp (by simpa using hndA)).1
            exact h5 (hc ▸ List.mem_map_of_mem Prod.fst hq3)
          rw [if_neg hqplast, remove_lookup,
            show (Node.mk p0.1 p0.2).key = p0.1 from rfl, if_neg hqp0]
          rw [dictLookup_isSome_iff]
          exact (hmemF q.1).mpr hqfront
        · have hq4 : q = plast := by simpa using hq3
          subst hq4
          rw [if_pos rfl]
          rfl

theorem C2_eviction_witness :
    (∃ lru st2,
      (LRUCache.mk 2 [(2, Node.mk 2 2), (1, Node.mk 1 1)]
        [Node.mk 2 2, Node.mk 1 1]).order.getLast? = some lru ∧
      (LRUCache.mk 2 [(2, Node.mk 2 2), (1, Node.mk 1 1)]
        [Node.mk 2 2, Node.mk 1 1]).put 3 3 = .ok st2 ∧
      (st2.cache.length : Int) = 2 ∧
      dictLookup st2.cache lru.key = none ∧
      lru.key ∉ orderKeys st2 ∧
      (dictLookup st2.cache 3).isSome = true ∧
      (∀ j : Int, j ≠ 3 → j ≠ lru.key →
        dictLookup st2.cache j =
          dictLookup (LRUCache.mk 2 [(2, Node.mk 2 2), (1, Node.mk 1 1)]
            [Node.mk 2 2, Node.mk 1 1]).cache j)) ∧
    (∃ st2, runOps (LRUCache.init 2)
        (([((1 : Int), (1 : Int)), (2, 2), (3, 3)]).map fun p => Op.put p.1 p.2) =
        .ok st2 ∧
      dictLookup st2.cache (((1 : Int), (1 : Int)) : Int × Int).1 = none ∧
      (∀ p ∈ ([((1 : Int), (1 : Int)), (2, 2), (3, 3)] : List (Int × Int)).drop 1,
        (dictLookup st2.cache p.1).isSome = true)) :=
  ⟨C2_eviction.1 2 [Op.put 1 1, Op.put 2 2] _ 3 3 (by decide) rfl
      (by decide) (by decide),
   C2_eviction.2 2 [((1 : Int), (1 : Int)), (2, 2), (3, 3)] ((1 : Int), (1 : Int))
      (by decide) (by decide) (by decide) rfl⟩
